import Mathlib

/-!
Shallow embedding of the single-instrument matching engine in
`src/matching_engine.cpp`.  C++ `int` is modelled as `ℤ`, `double` as `ℚ`,
`std::string` as `String`.  The account table (`std::map` with `operator[]`
default-insertion) is modelled as an association list whose first matching
entry is the binding; each `std::multiset` book side is modelled as a list
kept sorted by the side's comparator, with `multiset::emplace` modelled as
upper-bound ordered insertion.  Wall-clock reads (`get_epoch_ms`) are
threaded through as an explicit `now : ℤ` parameter.
-/

namespace MatchingEngine

/-- The `Transaction` record of the source (lines 23-32). -/
structure Transaction where
  id : ℤ
  quantity : ℤ
  price : ℚ
  timestamp : ℤ
  buyer : String
  seller : String
  aggressor : String
deriving DecidableEq, Repr

/-- The `Account_Details` record of the source (lines 34-38). -/
structure Account_Details where
  usd_balance : ℚ
  coin_balance : ℤ
deriving DecidableEq, Repr

/-- The `Order` record of the source (lines 40-48). -/
structure Order where
  id : ℤ
  account_name : String
  is_buy : Bool
  quantity : ℤ
  price : ℚ
  timestamp : ℤ
deriving DecidableEq, Repr

/-- The strict comparator `OrderComparator` (lines 50-56): the left
argument's side flag selects the polarity; better price first, and on a
price tie the earlier timestamp first. -/
def orderLess (a b : Order) : Prop :=
  if a.is_buy then b.price < a.price ∨ (a.price = b.price ∧ a.timestamp < b.timestamp)
  else a.price < b.price ∨ (a.price = b.price ∧ a.timestamp < b.timestamp)

instance : DecidableRel orderLess := fun a b => by
  unfold orderLess
  split <;> infer_instance

/-- The account table: an association list standing for the `std::map`
from account name to `Account_Details`. -/
abbrev AccMap := List (String × Account_Details)

/-- Read through `std::map::operator[]`: the bound value when the key is
present, a value-initialised `{0, 0}` otherwise. -/
def lookupAcc (accs : AccMap) (n : String) : Account_Details :=
  match accs with
  | [] => ⟨0, 0⟩
  | (m, a) :: rest => if m = n then a else lookupAcc rest n

/-- Key-membership test on the account table. -/
def hasAcc (accs : AccMap) (n : String) : Bool :=
  match accs with
  | [] => false
  | (m, _) :: rest => decide (m = n) || hasAcc rest n

/-- Write through `operator[]`: rebind the first matching entry, append a
fresh entry when the key is absent. -/
def setAcc (accs : AccMap) (n : String) (d : Account_Details) : AccMap :=
  match accs with
  | [] => [(n, d)]
  | (m, a) :: rest => if m = n then (m, d) :: rest else (m, a) :: setAcc rest n d

/-- Read-modify-write of one account through `operator[]`. -/
def updAcc (accs : AccMap) (n : String) (f : Account_Details → Account_Details) : AccMap :=
  setAcc accs n (f (lookupAcc accs n))

/-- The insertion side effect of `operator[]` on a missing key: a
value-initialised `{0, 0}` entry is created. -/
def ensureAcc (accs : AccMap) (n : String) : AccMap :=
  if hasAcc accs n then accs else accs ++ [(n, ⟨0, 0⟩)]

/-- The order book (line 343): a buy side and a sell side, each a
`std::multiset` ordered by `OrderComparator`, modelled as sorted lists. -/
structure Book where
  buys : List Order
  sells : List Order
deriving DecidableEq, Repr

/-- `OrderBook::add_order` (lines 178-182): `multiset::emplace` into the
side selected by the order's own flag, i.e. upper-bound ordered insertion
with respect to the comparator. -/
def add_order (o : Order) (b : Book) : Book :=
  if o.is_buy then { b with buys := List.orderedInsert orderLess o b.buys }
  else { b with sells := List.orderedInsert orderLess o b.sells }

/-- `std::find_if` by id followed by `erase` of the found iterator:
remove the first order carrying the given id, keep everything else. -/
def removeFirstWithId (oid : ℤ) : List Order → List Order
  | [] => []
  | o :: rest => if o.id = oid then rest else o :: removeFirstWithId oid rest

/-- `OrderBook::remove_order` (lines 184-199).  The side selection is
exactly the source's `order_id < 0 ? "buy" : "sell"`: a negative id
selects the buy side and a positive id the sell side. -/
def remove_order (oid : ℤ) (b : Book) : Book :=
  if oid = 0 then b
  else if oid < 0 then { b with buys := removeFirstWithId oid b.buys }
  else { b with sells := removeFirstWithId oid b.sells }

/-- `OrderBook::settle_accounts` (lines 201-217): the four balance
mutations in source order through `operator[]`, then one appended
transaction whose sequence id is the log length plus one and whose
timestamp is the settlement-time clock value. -/
def settle_accounts (buyer seller : String) (quantity : ℤ) (price : ℚ) (aggressor : String) (now : ℤ) (accounts : AccMap) (transactions : List Transaction) : AccMap × List Transaction :=
  let accounts1 := updAcc accounts buyer fun a =>
    { usd_balance := a.usd_balance - quantity * price, coin_balance := a.coin_balance + quantity }
  let accounts2 := updAcc accounts1 seller fun a =>
    { usd_balance := a.usd_balance + quantity * price, coin_balance := a.coin_balance - quantity }
  let t : Transaction :=
    { id := (transactions.length : ℤ) + 1, quantity := quantity, price := price,
      timestamp := now, buyer := buyer, seller := seller, aggressor := aggressor }
  (accounts2, transactions ++ [t])

/-- The while-condition's price test (line 224):
`order.is_buy ? order_it->price <= order.price : order_it->price >= order.price`. -/
def crosses (aggressor top : Order) : Prop :=
  if aggressor.is_buy then top.price ≤ aggressor.price else aggressor.price ≤ top.price

instance (a t : Order) : Decidable (crosses a t) := by
  unfold crosses
  split <;> infer_instance

/-- The matching walk of `OrderBook::match_order` (lines 219-255) over the
opposite book side, returning the updated aggressor, the updated opposite
side, the account table and the transaction log. -/
def matchLoop (now : ℤ) (order : Order) (accounts : AccMap) (transactions : List Transaction) : List Order → Order × List Order × AccMap × List Transaction
  | [] => (order, [], accounts, transactions)
  | top :: rest =>
    if crosses order top ∧ 0 < order.quantity ∧ order.account_name ≠ top.account_name then
      if top.quantity ≤ order.quantity then
        let order1 := { order with quantity := order.quantity - top.quantity }
        let buyer := if order.is_buy then order.account_name else top.account_name
        let seller := if order.is_buy then top.account_name else order.account_name
        let st := settle_accounts buyer seller top.quantity top.price
          (if order.is_buy then "buy" else "sell") now accounts transactions
        matchLoop now order1 st.1 st.2 rest
      else
        let updatedOrder : Order :=
          { id := top.id, account_name := top.account_name, is_buy := top.is_buy,
            quantity := top.quantity - order.quantity, price := top.price,
            timestamp := top.timestamp }
        let buyer := if order.is_buy then order.account_name else top.account_name
        let seller := if order.is_buy then top.account_name else order.account_name
        let st := settle_accounts buyer seller order.quantity top.price
          (if order.is_buy then "buy" else "sell") now accounts transactions
        ({ order with quantity := 0 },
          List.orderedInsert orderLess updatedOrder rest, st.1, st.2)
    else
      (order, top :: rest, accounts, transactions)

/-- `OrderBook::match_order` (lines 219-255): run the walk on the side
opposite the aggressor and write the walked side back into the book. -/
def match_order (order : Order) (b : Book) (accounts : AccMap) (transactions : List Transaction) (now : ℤ) : Order × Book × AccMap × List Transaction :=
  if order.is_buy then
    let r := matchLoop now order accounts transactions b.sells
    (r.1, { b with sells := r.2.1 }, r.2.2.1, r.2.2.2)
  else
    let r := matchLoop now order accounts transactions b.buys
    (r.1, { b with buys := r.2.1 }, r.2.2.1, r.2.2.2)

/-- `OrderBook::is_allowed_order` (lines 257-273).  `operator[]` on the
account table default-inserts a missing account before its balance is
read, so the possibly-grown table is returned alongside the verdict. -/
def is_allowed_order (order : Order) (b : Book) (accounts : AccMap) : Bool × AccMap :=
  let accounts1 := ensureAcc accounts order.account_name
  let a := lookupAcc accounts1 order.account_name
  if order.is_buy then
    (decide ((order.quantity : ℚ) * order.price ≤ a.usd_balance) &&
      !(b.sells.any fun o =>
        decide (o.account_name = order.account_name) && decide (o.price = order.price)),
      accounts1)
  else
    (decide (order.quantity ≤ a.coin_balance) &&
      !(b.buys.any fun o =>
        decide (o.account_name = order.account_name) && decide (o.price = order.price)),
      accounts1)

/-- The loop of `get_last_order_id`: `last_order_id = max(last_order_id,
abs(order.id))` folded over a side, starting from `0`. -/
def maxAbsId (l : List Order) : ℤ :=
  l.foldl (fun m o => max m (o.id.natAbs : ℤ)) 0

/-- `OrderBook::get_last_order_id` (lines 275-288): fold the maximum
absolute id over the target side, then apply the side's sign. -/
def get_last_order_id (isBuy : Bool) (b : Book) : ℤ :=
  let side := if isBuy then b.buys else b.sells
  let factor : ℤ := if isBuy then 1 else -1
  let last : ℤ := maxAbsId side
  factor * (if last = 0 then 1 else last + 1)

/-- `OrderBook::construct_order` (lines 290-300). -/
def construct_order (b : Book) (account_name side : String) (quantity : ℤ) (price : ℚ) (timestamp : ℤ) : Order :=
  { id := get_last_order_id (side == "buy") b, account_name := account_name,
    is_buy := side == "buy", quantity := quantity, price := price, timestamp := timestamp }

/-- The engine's mutable state: book, account table, transaction log. -/
structure EngineState where
  book : Book
  accounts : AccMap
  transactions : List Transaction
deriving DecidableEq, Repr

/-- One `Order` message through the engine loop (`matching_engine`, lines
580-595): admission, then matching, then insertion of a positive
remainder; a rejected order leaves behind only `operator[]`'s side effect
on the account table. -/
def processOrder (order : Order) (st : EngineState) (now : ℤ) : EngineState :=
  let adm := is_allowed_order order st.book st.accounts
  if adm.1 then
    let r := match_order order st.book adm.2 st.transactions now
    if 0 < r.1.quantity then
      { book := add_order r.1 r.2.1, accounts := r.2.2.1, transactions := r.2.2.2 }
    else
      { book := r.2.1, accounts := r.2.2.1, transactions := r.2.2.2 }
  else
    { st with accounts := adm.2 }

/-- The two message variants the engine loop consumes (line 58). -/
inductive Message where
  | newOrder : Order → Message
  | cancel : ℤ → Message
deriving DecidableEq, Repr

/-- One engine-loop iteration on a dequeued message, paired with the
settlement clock value used for any transactions it produces. -/
def stepEngine (st : EngineState) (m : Message × ℤ) : EngineState :=
  match m.1 with
  | Message.newOrder o => processOrder o st m.2
  | Message.cancel oid => { st with book := remove_order oid st.book }

/-- The engine loop over a finite message sequence, in arrival order. -/
def runEngine (msgs : List (Message × ℤ)) (st : EngineState) : EngineState :=
  msgs.foldl stepEngine st

/-- Spec §4.2, transcribed: walk the opposite side in priority order; for
each candidate `top` continue only while `top`'s price crosses the
aggressor's limit, the aggressor's remaining quantity is positive and the
accounts differ.  A full fill settles `top.quantity` units at `top.price`,
removes `top` and decrements the aggressor; otherwise the walk settles the
aggressor's remaining quantity at `top.price`, replaces `top` by a resting
order with the same id and timestamp but reduced quantity, zeroes the
aggressor and stops. -/
def matchWalkSpec (now : ℤ) (aggressor : Order) (accounts : AccMap) (transactions : List Transaction) : List Order → Order × List Order × AccMap × List Transaction
  | [] => (aggressor, [], accounts, transactions)
  | top :: rest =>
    if crosses aggressor top ∧ 0 < aggressor.quantity ∧ aggressor.account_name ≠ top.account_name then
      if top.quantity ≤ aggressor.quantity then
        let fill := settle_accounts
          (if aggressor.is_buy then aggressor.account_name else top.account_name)
          (if aggressor.is_buy then top.account_name else aggressor.account_name)
          top.quantity top.price (if aggressor.is_buy then "buy" else "sell")
          now accounts transactions
        matchWalkSpec now { aggressor with quantity := aggressor.quantity - top.quantity }
          fill.1 fill.2 rest
      else
        let fill := settle_accounts
          (if aggressor.is_buy then aggressor.account_name else top.account_name)
          (if aggressor.is_buy then top.account_name else aggressor.account_name)
          aggressor.quantity top.price (if aggressor.is_buy then "buy" else "sell")
          now accounts transactions
        ({ aggressor with quantity := 0 },
          List.orderedInsert orderLess { top with quantity := top.quantity - aggressor.quantity } rest,
          fill.1, fill.2)
    else
      (aggressor, top :: rest, accounts, transactions)

/-- Spec §4.2's `match(aggressor)` at the book level: the walk runs on the
side opposite the aggressor. -/
def match_order_spec (order : Order) (b : Book) (accounts : AccMap) (transactions : List Transaction) (now : ℤ) : Order × Book × AccMap × List Transaction :=
  if order.is_buy then
    let r := matchWalkSpec now order accounts transactions b.sells
    (r.1, { b with sells := r.2.1 }, r.2.2.1, r.2.2.2)
  else
    let r := matchWalkSpec now order accounts transactions b.buys
    (r.1, { b with buys := r.2.1 }, r.2.2.1, r.2.2.2)

/-- Nonstrict price-time priority between two stored orders of one side,
as the spec states it: on the buy side descending price with ties broken
by ascending timestamp, on the sell side ascending price with ties broken
by ascending timestamp. -/
def sidePriority (isBuy : Bool) (a b : Order) : Prop :=
  if isBuy then b.price ≤ a.price ∧ (a.price = b.price → a.timestamp ≤ b.timestamp)
  else a.price ≤ b.price ∧ (a.price = b.price → a.timestamp ≤ b.timestamp)

instance (f : Bool) (a b : Order) : Decidable (sidePriority f a b) := by
  unfold sidePriority
  split <;> infer_instance

/-- Well-formedness of one stored side: every order carries the side's
flag and the sequence is a valid price-time-priority order. -/
def sideInvariant (isBuy : Bool) (l : List Order) : Prop :=
  (∀ o ∈ l, o.is_buy = isBuy) ∧ l.Pairwise (sidePriority isBuy)

instance (f : Bool) (l : List Order) : Decidable (sideInvariant f l) := by
  unfold sideInvariant
  infer_instance

/-- The book's core ordering invariant over both sides. -/
def bookOrdered (b : Book) : Prop :=
  sideInvariant true b.buys ∧ sideInvariant false b.sells

instance (b : Book) : Decidable (bookOrdered b) := by
  unfold bookOrdered
  infer_instance

/-- Total USD summed over all accounts of the table. -/
def totalUsd : AccMap → ℚ
  | [] => 0
  | (_, a) :: rest => a.usd_balance + totalUsd rest

/-- Total asset units summed over all accounts of the table. -/
def totalCoin : AccMap → ℤ
  | [] => 0
  | (_, a) :: rest => a.coin_balance + totalCoin rest

/-- One settlement instruction, for iterating `settle_accounts` over an
arbitrary sequence of trades. -/
structure SettleOp where
  buyer : String
  seller : String
  quantity : ℤ
  price : ℚ
  aggressor : String
  now : ℤ

/-- Apply one settlement instruction to an accounts/log pair. -/
def applySettle (s : AccMap × List Transaction) (op : SettleOp) : AccMap × List Transaction :=
  settle_accounts op.buyer op.seller op.quantity op.price op.aggressor op.now s.1 s.2

/- Concrete data used by witnesses and counterexamples. -/

def aliceN : String := "alice"

def bobN : String := "bob"

def carolN : String := "carol"

def danaN : String := "dana"

def buyN : String := "buy"

def sellN : String := "sell"

def exBuy1 : Order := ⟨1, aliceN, true, 5, 10, 0⟩

def exSell1 : Order := ⟨-1, carolN, false, 8, 23, 0⟩

def exBook1 : Book := ⟨[exBuy1], []⟩

def exBook2 : Book := ⟨[exBuy1], [exSell1]⟩

def sellAggressor : Order := ⟨-1, bobN, false, 5, 10, 1⟩

def exAccounts : AccMap := [(aliceN, ⟨100, 50⟩), (bobN, ⟨100, 50⟩), (carolN, ⟨100, 50⟩)]

def danaSell : Order := ⟨0, danaN, false, 1, 5, 0⟩

def emptyState : EngineState := ⟨⟨[], []⟩, [], []⟩

def exState : EngineState := ⟨exBook2, exAccounts, []⟩

theorem matchLoop_eq_matchWalkSpec (now : ℤ) : ∀ (side : List Order) (order : Order) (accounts : AccMap) (transactions : List Transaction),
    matchLoop now order accounts transactions side = matchWalkSpec now order accounts transactions side := by
  intro side
  induction side with
  | nil => intro o a t; rfl
  | cons top rest ih =>
    intro o a t
    rw [matchLoop, matchWalkSpec]
    split
    · split
      · exact ih _ _ _
      · rfl
    · rfl

/-- C1: for every aggressor, `match_order` walks the opposite book side in
priority order and behaves, step for step, exactly as §4.2 describes it —
continue while the top crosses, quantity remains and the accounts differ;
full fill at the maker's price removes the top and decrements the
aggressor; otherwise the aggressor's remainder is settled at the maker's
price, the top is replaced keeping its id and timestamp with quantity
reduced, the aggressor is zeroed and the walk stops. -/
theorem c1_match_order_follows_spec : ∀ (order : Order) (b : Book) (accounts : AccMap) (transactions : List Transaction) (now : ℤ),
    match_order order b accounts transactions now = match_order_spec order b accounts transactions now := by
  intro o b a t n
  unfold match_order match_order_spec
  simp only [matchLoop_eq_matchWalkSpec]

theorem lookupAcc_setAcc_self (accs : AccMap) (n : String) (d : Account_Details) :
    lookupAcc (setAcc accs n d) n = d := by
  induction accs with
  | nil => simp [setAcc, lookupAcc]
  | cons p rest ih =>
    obtain ⟨m, a⟩ := p
    by_cases h : m = n
    · simp [setAcc, h, lookupAcc]
    · simp [setAcc, h, lookupAcc, ih]

theorem lookupAcc_setAcc_ne (accs : AccMap) (n : String) (d : Account_Details) (m : String) (h : m ≠ n) :
    lookupAcc (setAcc accs n d) m = lookupAcc accs m := by
  induction accs with
  | nil => simp [setAcc, lookupAcc, Ne.symm h]
  | cons p rest ih =>
    obtain ⟨k, a⟩ := p
    by_cases hk : k = n
    · subst hk
      have hkm : ¬(k = m) := fun hh => h (hh.symm ▸ rfl)
      simp [setAcc, lookupAcc, hkm]
    · by_cases hm : k = m
      · simp [setAcc, hk, lookupAcc, hm, h]
      · simp [setAcc, hk, lookupAcc, hm, ih]

theorem totalUsd_setAcc (accs : AccMap) (n : String) (d : Account_Details) :
    totalUsd (setAcc accs n d) = totalUsd accs - (lookupAcc accs n).usd_balance + d.usd_balance := by
  induction accs with
  | nil =>
    simp [setAcc, totalUsd, lookupAcc]
  | cons p rest ih =>
    obtain ⟨k, a⟩ := p
    by_cases h : k = n
    · simp [setAcc, h, totalUsd, lookupAcc]
      ring
    · simp [setAcc, h, totalUsd, lookupAcc, ih]
      ring

theorem totalCoin_setAcc (accs : AccMap) (n : String) (d : Account_Details) :
    totalCoin (setAcc accs n d) = totalCoin accs - (lookupAcc accs n).coin_balance + d.coin_balance := by
  induction accs with
  | nil =>
    simp [setAcc, totalCoin, lookupAcc]
  | cons p rest ih =>
    obtain ⟨k, a⟩ := p
    by_cases h : k = n
    · simp [setAcc, h, totalCoin, lookupAcc]
      ring
    · simp [setAcc, h, totalCoin, lookupAcc, ih]
      ring

theorem totalUsd_settle (buyer seller : String) (q : ℤ) (p : ℚ) (agg : String) (now : ℤ) (accs : AccMap) (txs : List Transaction) :
    totalUsd (settle_accounts buyer seller q p agg now accs txs).1 = totalUsd accs := by
  unfold settle_accounts updAcc
  simp only [totalUsd_setAcc]
  ring

theorem totalCoin_settle (buyer seller : String) (q : ℤ) (p : ℚ) (agg : String) (now : ℤ) (accs : AccMap) (txs : List Transaction) :
    totalCoin (settle_accounts buyer seller q p agg now accs txs).1 = totalCoin accs := by
  unfold settle_accounts updAcc
  simp only [totalCoin_setAcc]
  ring

theorem totals_foldl_applySettle : ∀ (ops : List SettleOp) (s : AccMap × List Transaction),
    totalUsd (ops.foldl applySettle s).1 = totalUsd s.1 ∧
    totalCoin (ops.foldl applySettle s).1 = totalCoin s.1 := by
  intro ops
  induction ops with
  | nil => intro s; exact ⟨rfl, rfl⟩
  | cons op rest ih =>
    intro s
    rw [List.foldl_cons]
    constructor
    · rw [(ih (applySettle s op)).1]
      exact totalUsd_settle _ _ _ _ _ _ _ _
    · rw [(ih (applySettle s op)).2]
      exact totalCoin_settle _ _ _ _ _ _ _ _

/-- C3: one settlement moves exactly `q` units and `q*p` USD between
buyer and seller, appends exactly one transaction whose sequence id is
the log length plus one, and conserves the totals of the account table;
the totals stay invariant across any sequence of settlements. -/
theorem c3_settlement_conserves_balances :
  ∀ (accs : AccMap) (txs : List Transaction) (buyer seller : String) (q : ℤ) (p : ℚ) (agg : String) (now : ℤ),
    buyer ≠ seller →
    (lookupAcc (settle_accounts buyer seller q p agg now accs txs).1 buyer).coin_balance
        = (lookupAcc accs buyer).coin_balance + q ∧
    (lookupAcc (settle_accounts buyer seller q p agg now accs txs).1 buyer).usd_balance
        = (lookupAcc accs buyer).usd_balance - q * p ∧
    (lookupAcc (settle_accounts buyer seller q p agg now accs txs).1 seller).coin_balance
        = (lookupAcc accs seller).coin_balance - q ∧
    (lookupAcc (settle_accounts buyer seller q p agg now accs txs).1 seller).usd_balance
        = (lookupAcc accs seller).usd_balance + q * p ∧
    (settle_accounts buyer seller q p agg now accs txs).2
        = txs ++ [⟨(txs.length : ℤ) + 1, q, p, now, buyer, seller, agg⟩] ∧
    totalUsd (settle_accounts buyer seller q p agg now accs txs).1 = totalUsd accs ∧
    totalCoin (settle_accounts buyer seller q p agg now accs txs).1 = totalCoin accs ∧
    (∀ ops : List SettleOp,
      totalUsd ((ops.foldl applySettle (accs, txs)).1) = totalUsd accs ∧
      totalCoin ((ops.foldl applySettle (accs, txs)).1) = totalCoin accs) := by
  intro accs txs buyer seller q p agg now hne
  refine ⟨?_, ?_, ?_, ?_, ?_, ?_, ?_, ?_⟩
  · simp [settle_accounts, updAcc, lookupAcc_setAcc_ne _ _ _ _ hne, lookupAcc_setAcc_self]
  · simp [settle_accounts, updAcc, lookupAcc_setAcc_ne _ _ _ _ hne, lookupAcc_setAcc_self]
  · simp [settle_accounts, updAcc, lookupAcc_setAcc_self,
      lookupAcc_setAcc_ne _ _ _ _ (Ne.symm hne)]
  · simp [settle_accounts, updAcc, lookupAcc_setAcc_self,
      lookupAcc_setAcc_ne _ _ _ _ (Ne.symm hne)]
  · rfl
  · exact totalUsd_settle _ _ _ _ _ _ _ _
  · exact totalCoin_settle _ _ _ _ _ _ _ _
  · intro ops
    exact totals_foldl_applySettle ops (accs, txs)

theorem c3_settlement_conserves_balances_witness :
  aliceN ≠ bobN ∧
  (lookupAcc (settle_accounts aliceN bobN 2 3 buyN 0 exAccounts []).1 aliceN).coin_balance
    = (lookupAcc exAccounts aliceN).coin_balance + 2 :=
  ⟨by decide, (c3_settlement_conserves_balances exAccounts [] aliceN bobN 2 3 buyN 0 (by decide)).1⟩

theorem sidePriority_trans (f : Bool) (a b c : Order) (h1 : sidePriority f a b) (h2 : sidePriority f b c) : sidePriority f a c := by
  cases f
  · simp only [sidePriority, if_neg, Bool.false_eq_true, ite_false] at h1 h2 ⊢
    obtain ⟨hab, tab⟩ := h1
    obtain ⟨hbc, tbc⟩ := h2
    refine ⟨le_trans hab hbc, fun hac => ?_⟩
    have h1' : a.price = b.price := by
      refine le_antisymm hab ?_
      rw [hac]
      exact hbc
    have h2' : b.price = c.price := by
      rw [← h1']
      exact hac
    exact le_trans (tab h1') (tbc h2')
  · simp only [sidePriority, ite_true] at h1 h2 ⊢
    obtain ⟨hab, tab⟩ := h1
    obtain ⟨hbc, tbc⟩ := h2
    refine ⟨le_trans hbc hab, fun hac => ?_⟩
    have h1' : a.price = b.price := by
      refine le_antisymm ?_ hab
      rw [hac]
      exact hbc
    have h2' : b.price = c.price := by
      rw [← h1']
      exact hac
    exact le_trans (tab h1') (tbc h2')

theorem sidePriority_of_orderLess (f : Bool) (a b : Order) (ha : a.is_buy = f) (h : orderLess a b) : sidePriority f a b := by
  cases f
  · simp only [orderLess, ha, Bool.false_eq_true, ite_false] at h
    simp only [sidePriority, Bool.false_eq_true, ite_false]
    rcases h with h | ⟨hp, ht⟩
    · exact ⟨le_of_lt h, fun he => absurd he (ne_of_lt h)⟩
    · exact ⟨le_of_eq hp, fun _ => le_of_lt ht⟩
  · simp only [orderLess, ha, ite_true] at h
    simp only [sidePriority, ite_true]
    rcases h with h | ⟨hp, ht⟩
    · exact ⟨le_of_lt h, fun he => absurd he.symm (ne_of_lt h)⟩
    · exact ⟨le_of_eq hp.symm, fun _ => le_of_lt ht⟩

theorem sidePriority_of_not_orderLess (f : Bool) (a b : Order) (ha : a.is_buy = f) (h : ¬ orderLess a b) : sidePriority f b a := by
  cases f
  · simp only [orderLess, ha, Bool.false_eq_true, ite_false] at h
    push_neg at h
    simp only [sidePriority, Bool.false_eq_true, ite_false]
    exact ⟨h.1, fun he => h.2 he.symm⟩
  · simp only [orderLess, ha, ite_true] at h
    push_neg at h
    simp only [sidePriority, ite_true]
    exact ⟨h.1, fun he => h.2 he.symm⟩

theorem sideInvariant_orderedInsert (f : Bool) (o : Order) (ho : o.is_buy = f) :
    ∀ (l : List Order), sideInvariant f l → sideInvariant f (List.orderedInsert orderLess o l) := by
  intro l
  induction l with
  | nil =>
    intro _
    refine ⟨?_, ?_⟩
    · intro x hx
      rw [List.orderedInsert] at hx
      rcases List.mem_singleton.mp hx with rfl
      exact ho
    · rw [List.orderedInsert]
      exact List.pairwise_singleton _ o
  | cons b rest ih =>
    intro hinv
    have hflag := hinv.1
    have hpw := List.pairwise_cons.mp hinv.2
    obtain ⟨hb_rest, hpw_rest⟩ := hpw
    by_cases hlt : orderLess o b
    · rw [List.orderedInsert, if_pos hlt]
      refine ⟨?_, ?_⟩
      · intro x hx
        rcases List.mem_cons.mp hx with rfl | hx2
        · exact ho
        · exact hflag x hx2
      · rw [List.pairwise_cons]
        refine ⟨?_, List.pairwise_cons.mpr ⟨hb_rest, hpw_rest⟩⟩
        intro x hx
        rcases List.mem_cons.mp hx with rfl | hx2
        · exact sidePriority_of_orderLess f o x ho hlt
        · exact sidePriority_trans f o b x (sidePriority_of_orderLess f o b ho hlt) (hb_rest x hx2)
    · rw [List.orderedInsert, if_neg hlt]
      have hrest := ih ⟨fun x hx => hflag x (List.mem_cons_of_mem b hx), hpw_rest⟩
      refine ⟨?_, ?_⟩
      · intro x hx
        rcases List.mem_cons.mp hx with rfl | hx2
        · exact hflag _ (List.mem_cons_self _ _)
        · exact hrest.1 x hx2
      · rw [List.pairwise_cons]
        refine ⟨?_, hrest.2⟩
        intro x hx
        rcases (List.mem_orderedInsert orderLess).mp hx with rfl | hx2
        · exact sidePriority_of_not_orderLess f _ _ ho hlt
        · exact hb_rest x hx2

theorem removeFirstWithId_sublist (oid : ℤ) : ∀ l : List Order, List.Sublist (removeFirstWithId oid l) l := by
  intro l
  induction l with
  | nil => simp [removeFirstWithId]
  | cons o rest ih =>
    rw [removeFirstWithId]
    by_cases h : o.id = oid
    · rw [if_pos h]
      exact List.sublist_cons_self o rest
    · rw [if_neg h]
      exact List.Sublist.cons₂ o ih

theorem sideInvariant_sublist (f : Bool) {l l' : List Order} (h : List.Sublist l' l) (hinv : sideInvariant f l) : sideInvariant f l' :=
  ⟨fun o ho => hinv.1 o (h.subset ho), hinv.2.sublist h⟩

theorem matchLoop_sideInvariant (f : Bool) (now : ℤ) :
    ∀ (side : List Order) (order : Order) (accs : AccMap) (txs : List Transaction),
      sideInvariant f side → sideInvariant f (matchLoop now order accs txs side).2.1 := by
  intro side
  induction side with
  | nil =>
    intro o a t h
    exact h
  | cons top rest ih =>
    intro o a t h
    have hrest : sideInvariant f rest :=
      ⟨fun x hx => h.1 x (List.mem_cons_of_mem top hx), (List.pairwise_cons.mp h.2).2⟩
    simp only [matchLoop]
    split
    · split
      · exact ih _ _ _ hrest
      · exact sideInvariant_orderedInsert f
          { id := top.id, account_name := top.account_name, is_buy := top.is_buy,
            quantity := top.quantity - o.quantity, price := top.price,
            timestamp := top.timestamp }
          (h.1 top (List.mem_cons_self top rest)) rest hrest
    · exact h

/-- C6: after every book mutation — insert, removal by id, and the
matching walk including the reduced-quantity replacement of a partially
filled top — the buy side stays totally ordered by descending price with
ties broken by ascending timestamp, and the sell side by ascending price
with ties broken by ascending timestamp. -/
theorem c6_price_time_priority_invariant :
  ∀ (b : Book) (o : Order) (oid : ℤ) (accs : AccMap) (txs : List Transaction) (now : ℤ),
    bookOrdered b →
    bookOrdered (add_order o b) ∧
    bookOrdered (remove_order oid b) ∧
    bookOrdered (match_order o b accs txs now).2.1 := by
  intro b o oid accs txs now hb
  obtain ⟨hbuy, hsell⟩ := hb
  refine ⟨?_, ?_, ?_⟩
  · unfold add_order
    cases hob : o.is_buy
    · simp only [Bool.false_eq_true, ite_false]
      exact ⟨hbuy, sideInvariant_orderedInsert false o hob b.sells hsell⟩
    · simp only [ite_true]
      exact ⟨sideInvariant_orderedInsert true o hob b.buys hbuy, hsell⟩
  · unfold remove_order
    split
    · exact ⟨hbuy, hsell⟩
    · split
      · exact ⟨sideInvariant_sublist true (removeFirstWithId_sublist oid b.buys) hbuy, hsell⟩
      · exact ⟨hbuy, sideInvariant_sublist false (removeFirstWithId_sublist oid b.sells) hsell⟩
  · unfold match_order
    cases hob : o.is_buy
    · simp only [Bool.false_eq_true, ite_false]
      exact ⟨matchLoop_sideInvariant true now b.buys o accs txs hbuy, hsell⟩
    · simp only [ite_true]
      exact ⟨hbuy, matchLoop_sideInvariant false now b.sells o accs txs hsell⟩

theorem c6_price_time_priority_invariant_witness :
  bookOrdered exBook2 ∧ bookOrdered (add_order sellAggressor exBook2) :=
  ⟨by decide, ((c6_price_time_priority_invariant exBook2 sellAggressor 7 [] [] 0) (by decide)).1⟩

theorem matchLoop_txs (now : ℤ) :
    ∀ (side : List Order) (order : Order) (accs : AccMap) (txs : List Transaction),
      ∀ tr ∈ (matchLoop now order accs txs side).2.2.2, tr ∈ txs ∨ tr.buyer ≠ tr.seller := by
  intro side
  induction side with
  | nil =>
    intro o a t tr htr
    exact Or.inl htr
  | cons top rest ih =>
    intro o a t tr htr
    rw [matchLoop] at htr
    by_cases hc : crosses o top ∧ 0 < o.quantity ∧ o.account_name ≠ top.account_name
    · rw [if_pos hc] at htr
      by_cases hq : top.quantity ≤ o.quantity
      · rw [if_pos hq] at htr
        rcases ih _ _ _ _ htr with hmem | hne
        · rcases List.mem_append.mp hmem with h1 | h2
          · exact Or.inl h1
          · rcases List.mem_singleton.mp h2 with rfl
            refine Or.inr ?_
            cases hob : o.is_buy <;> simp only [Transaction.buyer, Transaction.seller, hob,
              Bool.false_eq_true, ite_false, ite_true]
            · exact Ne.symm hc.2.2
            · exact hc.2.2
        · exact Or.inr hne
      · rw [if_neg hq] at htr
        rcases List.mem_append.mp htr with h1 | h2
        · exact Or.inl h1
        · rcases List.mem_singleton.mp h2 with rfl
          refine Or.inr ?_
          cases hob : o.is_buy <;> simp only [Transaction.buyer, Transaction.seller, hob,
            Bool.false_eq_true, ite_false, ite_true]
          · exact Ne.symm hc.2.2
          · exact hc.2.2
    · rw [if_neg hc] at htr
      exact Or.inl htr

theorem match_order_txs (o : Order) (b : Book) (accs : AccMap) (txs : List Transaction) (now : ℤ) :
    ∀ tr ∈ (match_order o b accs txs now).2.2.2, tr ∈ txs ∨ tr.buyer ≠ tr.seller := by
  intro tr htr
  unfold match_order at htr
  cases hob : o.is_buy
  · rw [hob] at htr
    simp only [Bool.false_eq_true, ite_false] at htr
    exact matchLoop_txs now b.buys o accs txs tr htr
  · rw [hob] at htr
    simp only [ite_true] at htr
    exact matchLoop_txs now b.sells o accs txs tr htr

theorem processOrder_txs (o : Order) (st : EngineState) (now : ℤ) :
    ∀ tr ∈ (processOrder o st now).transactions, tr ∈ st.transactions ∨ tr.buyer ≠ tr.seller := by
  intro tr htr
  unfold processOrder at htr
  by_cases hadm : (is_allowed_order o st.book st.accounts).1 = true
  · rw [if_pos hadm] at htr
    by_cases hq : 0 < (match_order o st.book (is_allowed_order o st.book st.accounts).2 st.transactions now).1.quantity
    · rw [if_pos hq] at htr
      exact match_order_txs o st.book _ st.transactions now tr htr
    · rw [if_neg hq] at htr
      exact match_order_txs o st.book _ st.transactions now tr htr
  · rw [if_neg hadm] at htr
    exact Or.inl htr

theorem stepEngine_txs (st : EngineState) (m : Message × ℤ) :
    ∀ tr ∈ (stepEngine st m).transactions, tr ∈ st.transactions ∨ tr.buyer ≠ tr.seller := by
  obtain ⟨msg, now⟩ := m
  cases msg with
  | newOrder o => exact processOrder_txs o st now
  | cancel oid =>
    intro tr htr
    exact Or.inl htr

theorem runEngine_txs : ∀ (msgs : List (Message × ℤ)) (st : EngineState),
    (∀ tr ∈ st.transactions, tr.buyer ≠ tr.seller) →
    ∀ tr ∈ (runEngine msgs st).transactions, tr.buyer ≠ tr.seller := by
  intro msgs
  induction msgs with
  | nil =>
    intro st h
    exact h
  | cons m rest ih =>
    intro st h tr htr
    refine ih (stepEngine st m) (fun tr2 htr2 => ?_) tr htr
    rcases stepEngine_txs st m tr2 htr2 with hmem | hne
    · exact h tr2 hmem
    · exact hne

/-- C4: along any run of the engine loop no transaction ever has its
buyer equal to its seller, and when the best-priority candidate on the
opposite side belongs to the aggressor's account the matching walk
terminates immediately — book side, accounts and log are returned
untouched, with no skipping to lower-priority candidates. -/
theorem c4_no_self_trade :
  (∀ (msgs : List (Message × ℤ)) (st : EngineState),
      (∀ tr ∈ st.transactions, tr.buyer ≠ tr.seller) →
      ∀ tr ∈ (runEngine msgs st).transactions, tr.buyer ≠ tr.seller) ∧
  (∀ (now : ℤ) (order top : Order) (rest : List Order) (accs : AccMap) (txs : List Transaction),
      top.account_name = order.account_name →
      matchLoop now order accs txs (top :: rest) = (order, top :: rest, accs, txs)) := by
  constructor
  · exact runEngine_txs
  · intro now o top rest accs txs hsame
    rw [matchLoop, if_neg]
    rintro ⟨-, -, hne⟩
    exact hne hsame.symm

theorem c4_no_self_trade_witness :
  (Transaction.mk 1 5 10 0 aliceN bobN sellN).buyer ≠ (Transaction.mk 1 5 10 0 aliceN bobN sellN).seller ∧
  matchLoop 0 sellAggressor [] [] [⟨1, bobN, true, 5, 10, 0⟩] = (sellAggressor, [⟨1, bobN, true, 5, 10, 0⟩], [], []) :=
  ⟨c4_no_self_trade.1 [(Message.newOrder sellAggressor, 0)] exState (by decide) _ (by decide),
    c4_no_self_trade.2 0 sellAggressor ⟨1, bobN, true, 5, 10, 0⟩ [] [] [] (by decide)⟩

theorem lookupAcc_of_hasAcc_false (accs : AccMap) (n : String) (h : hasAcc accs n = false) :
    lookupAcc accs n = ⟨0, 0⟩ := by
  induction accs with
  | nil => rfl
  | cons p rest ih =>
    obtain ⟨m, a⟩ := p
    rw [hasAcc, Bool.or_eq_false_iff] at h
    have hm : ¬(m = n) := by
      intro hh
      rw [decide_eq_false_iff_not] at h
      exact h.1 hh
    rw [lookupAcc, if_neg hm]
    exact ih h.2

theorem lookupAcc_append_of_hasAcc_false (accs : AccMap) (n : String) (d : Account_Details) (h : hasAcc accs n = false) :
    lookupAcc (accs ++ [(n, d)]) n = d := by
  induction accs with
  | nil => simp [lookupAcc]
  | cons p rest ih =>
    obtain ⟨m, a⟩ := p
    rw [hasAcc, Bool.or_eq_false_iff] at h
    have hm : ¬(m = n) := by
      intro hh
      rw [decide_eq_false_iff_not] at h
      exact h.1 hh
    rw [List.cons_append, lookupAcc, if_neg hm]
    exact ih h.2

theorem lookupAcc_ensureAcc (accs : AccMap) (n : String) :
    lookupAcc (ensureAcc accs n) n = lookupAcc accs n := by
  cases hb : hasAcc accs n
  · simp only [ensureAcc, hb, Bool.false_eq_true, ite_false]
    rw [lookupAcc_append_of_hasAcc_false accs n ⟨0, 0⟩ hb, lookupAcc_of_hasAcc_false accs n hb]
  · simp only [ensureAcc, hb, ite_true]

/-- C5: the Admission Gate admits a buy order exactly when the account's
USD balance covers `quantity * price` and the account has no resting sell
at the same price, a sell order exactly when the asset balance covers the
quantity and the account has no resting buy at the same price; a rejected
order leaves book and transaction log untouched. -/
theorem c5_admission_gate :
  ∀ (order : Order) (st : EngineState) (now : ℤ),
    ((is_allowed_order order st.book st.accounts).1 = true ↔
      (if order.is_buy then
        (order.quantity : ℚ) * order.price ≤ (lookupAcc st.accounts order.account_name).usd_balance ∧
          ∀ o ∈ st.book.sells, ¬(o.account_name = order.account_name ∧ o.price = order.price)
       else
        order.quantity ≤ (lookupAcc st.accounts order.account_name).coin_balance ∧
          ∀ o ∈ st.book.buys, ¬(o.account_name = order.account_name ∧ o.price = order.price))) ∧
    ((is_allowed_order order st.book st.accounts).1 = false →
      (processOrder order st now).book = st.book ∧
      (processOrder order st now).transactions = st.transactions) := by
  intro o st now
  constructor
  · cases hob : o.is_buy
    · simp [is_allowed_order, hob, lookupAcc_ensureAcc, not_and, List.any_eq_true]
    · simp [is_allowed_order, hob, lookupAcc_ensureAcc, not_and, List.any_eq_true]
  · intro hfalse
    unfold processOrder
    rw [if_neg (by rw [hfalse]; exact Bool.false_ne_true)]
    exact ⟨rfl, rfl⟩

theorem c5_admission_gate_witness :
  (is_allowed_order danaSell emptyState.book emptyState.accounts).1 = false ∧
  (processOrder danaSell emptyState 0).book = emptyState.book ∧
  (processOrder danaSell emptyState 0).transactions = emptyState.transactions :=
  ⟨by decide, ((c5_admission_gate danaSell emptyState 0).2 (by decide)).1,
    ((c5_admission_gate danaSell emptyState 0).2 (by decide)).2⟩

/-- C2 (code bug, evaluated): `remove_order` selects the buy side for
NEGATIVE ids and the sell side for positive ids, while minted buy ids are
positive and sell ids negative; so cancelling resting buy id 1 and
cancelling resting sell id -1 both leave the book unchanged even though
the orders are present. -/
theorem c2_cancel_side_inversion_eval :
  exBuy1.id = 1 ∧ exBuy1 ∈ exBook1.buys ∧ remove_order 1 exBook1 = exBook1 ∧
  exSell1.id = -1 ∧ exSell1 ∈ exBook2.sells ∧ remove_order (-1) exBook2 = exBook2 := by
  decide

theorem removeFirstWithId_of_not_mem (oid : ℤ) : ∀ (l : List Order),
    (∀ o ∈ l, o.id ≠ oid) → removeFirstWithId oid l = l := by
  intro l
  induction l with
  | nil =>
    intro _
    rfl
  | cons o rest ih =>
    intro h
    rw [removeFirstWithId, if_neg (h o (List.mem_cons_self o rest)),
      ih (fun x hx => h x (List.mem_cons_of_mem o hx))]

theorem not_mem_removeFirstWithId (oid : ℤ) : ∀ (l : List Order),
    l.Pairwise (fun x y => x.id ≠ y.id) → ∀ o ∈ removeFirstWithId oid l, o.id ≠ oid := by
  intro l
  induction l with
  | nil =>
    intro _ o ho
    exact absurd ho (List.not_mem_nil o)
  | cons b rest ih =>
    intro hpw o ho
    rw [removeFirstWithId] at ho
    by_cases hb : b.id = oid
    · rw [if_pos hb] at ho
      intro hoid
      exact (List.pairwise_cons.mp hpw).1 o ho (hb.trans hoid.symm)
    · rw [if_neg hb] at ho
      rcases List.mem_cons.mp ho with rfl | ho2
      · exact hb
      · exact ih (List.pairwise_cons.mp hpw).2 o ho2

/-- C9: a cancel of id 0 leaves the book unchanged; a cancel of an id not
resting anywhere in the book leaves the book unchanged; and when resting
ids are distinct per side, cancelling the same id again after it has been
removed is a no-op every time. -/
theorem c9_cancel_noop :
  ∀ (b : Book) (oid : ℤ),
    remove_order 0 b = b ∧
    ((∀ o ∈ b.buys, o.id ≠ oid) → (∀ o ∈ b.sells, o.id ≠ oid) → remove_order oid b = b) ∧
    (b.buys.Pairwise (fun x y => x.id ≠ y.id) → b.sells.Pairwise (fun x y => x.id ≠ y.id) →
      remove_order oid (remove_order oid b) = remove_order oid b) := by
  intro b oid
  refine ⟨?_, ?_, ?_⟩
  · rw [remove_order, if_pos rfl]
  · intro hb hs
    by_cases h0 : oid = 0
    · rw [remove_order, if_pos h0]
    · by_cases hneg : oid < 0
      · rw [remove_order, if_neg h0, if_pos hneg, removeFirstWithId_of_not_mem oid b.buys hb]
      · rw [remove_order, if_neg h0, if_neg hneg, removeFirstWithId_of_not_mem oid b.sells hs]
  · intro hpb hps
    by_cases h0 : oid = 0
    · subst h0
      rw [remove_order, if_pos rfl]
    · by_cases hneg : oid < 0
      · have hr : remove_order oid b = { b with buys := removeFirstWithId oid b.buys } := by
          rw [remove_order, if_neg h0, if_pos hneg]
        rw [hr, remove_order, if_neg h0, if_pos hneg,
          removeFirstWithId_of_not_mem oid _ (not_mem_removeFirstWithId oid b.buys hpb)]
      · have hr : remove_order oid b = { b with sells := removeFirstWithId oid b.sells } := by
          rw [remove_order, if_neg h0, if_neg hneg]
        rw [hr, remove_order, if_neg h0, if_neg hneg,
          removeFirstWithId_of_not_mem oid _ (not_mem_removeFirstWithId oid b.sells hps)]

theorem c9_cancel_noop_witness :
  remove_order 0 exBook2 = exBook2 ∧
  remove_order 7 exBook2 = exBook2 ∧
  remove_order 7 (remove_order 7 exBook2) = remove_order 7 exBook2 :=
  ⟨(c9_cancel_noop exBook2 7).1,
    (c9_cancel_noop exBook2 7).2.1 (by decide) (by decide),
    (c9_cancel_noop exBook2 7).2.2 (by decide) (by decide)⟩

/-- C8 counterexample: processing an order that names an account absent
from the table is not state-preserving — `operator[]` default-inserts a
zero-balance entry into the account table. -/
theorem c8_unknown_account_creates_entry :
  (processOrder danaSell emptyState 0).accounts = [(danaN, ⟨0, 0⟩)] ∧
  (processOrder danaSell emptyState 0).accounts ≠ emptyState.accounts := by
  decide

/-- C8 (amended): admission of an order naming an unknown account
default-inserts a zero-balance entry and, whenever the order needs a
positive balance, rejects the order; everything else — book, existing
balances, transaction log — is unchanged. -/
theorem c8_unknown_account_amended :
  ∀ (st : EngineState) (order : Order) (now : ℤ),
    hasAcc st.accounts order.account_name = false →
    (order.is_buy = true → 0 < (order.quantity : ℚ) * order.price) →
    (order.is_buy = false → 0 < order.quantity) →
    processOrder order st now =
      { st with accounts := st.accounts ++ [(order.account_name, ⟨0, 0⟩)] } := by
  intro st o now h hbuy hsell
  have hlook : lookupAcc (ensureAcc st.accounts o.account_name) o.account_name = ⟨0, 0⟩ := by
    rw [lookupAcc_ensureAcc, lookupAcc_of_hasAcc_false _ _ h]
  have hens : ensureAcc st.accounts o.account_name = st.accounts ++ [(o.account_name, ⟨0, 0⟩)] := by
    simp only [ensureAcc, h, Bool.false_eq_true, ite_false]
  have hadm : (is_allowed_order o st.book st.accounts).1 = false := by
    unfold is_allowed_order
    cases hob : o.is_buy
    · simp only [Bool.false_eq_true, ite_false]
      rw [hlook]
      have hq : ¬(o.quantity ≤ (⟨0, 0⟩ : Account_Details).coin_balance) := not_le.mpr (hsell hob)
      simp [hq]
    · simp only [ite_true]
      rw [hlook]
      have hq : ¬((o.quantity : ℚ) * o.price ≤ (⟨0, 0⟩ : Account_Details).usd_balance) :=
        not_le.mpr (hbuy hob)
      simp [hq]
  have h2 : (is_allowed_order o st.book st.accounts).2 = st.accounts ++ [(o.account_name, ⟨0, 0⟩)] := by
    unfold is_allowed_order
    cases hob : o.is_buy
    · simp only [Bool.false_eq_true, ite_false]
      exact hens
    · simp only [ite_true]
      exact hens
  unfold processOrder
  rw [if_neg (by rw [hadm]; exact Bool.false_ne_true), h2]

theorem c8_unknown_account_amended_witness :
  hasAcc emptyState.accounts danaSell.account_name = false ∧
  processOrder danaSell emptyState 0 =
    { emptyState with accounts := emptyState.accounts ++ [(danaSell.account_name, ⟨0, 0⟩)] } :=
  ⟨by decide,
    c8_unknown_account_amended emptyState danaSell 0 (by decide)
      (fun hb => absurd hb (by decide)) (fun _ => by decide)⟩

theorem le_foldl_maxAbs : ∀ (l : List Order) (init : ℤ),
    init ≤ l.foldl (fun m o => max m (o.id.natAbs : ℤ)) init := by
  intro l
  induction l with
  | nil =>
    intro init
    exact le_refl init
  | cons o rest ih =>
    intro init
    rw [List.foldl_cons]
    exact le_trans (le_max_left init _) (ih _)

theorem mem_le_foldl_maxAbs : ∀ (l : List Order) (o : Order), o ∈ l → ∀ (init : ℤ),
    (o.id.natAbs : ℤ) ≤ l.foldl (fun m x => max m (x.id.natAbs : ℤ)) init := by
  intro l
  induction l with
  | nil =>
    intro o ho
    exact absurd ho (List.not_mem_nil o)
  | cons b rest ih =>
    intro o ho init
    rw [List.foldl_cons]
    rcases List.mem_cons.mp ho with rfl | ho2
    · exact le_trans (le_max_right init _) (le_foldl_maxAbs rest _)
    · exact ih o ho2 _

/-- C7 counterexample: the next id is recomputed from the orders
currently resting, so id magnitudes are re-minted after a fill — a buy
constructed before the fill of buy id 1 gets id 2, a buy constructed
after it gets id 1 again; the minted sequence is not monotone. -/
theorem c7_next_id_not_monotone :
  (construct_order exBook1 carolN buyN 1 10 2).id = 2 ∧
  (match_order sellAggressor exBook1 [] [] 0).2.1.buys = [] ∧
  (construct_order (match_order sellAggressor exBook1 [] [] 0).2.1 carolN buyN 1 10 3).id = 1 := by
  decide

/-- C7 (amended): `get_last_order_id` returns sign times (max absolute
resting id on the target side, default 0, plus one), so the first id on a
side is plus or minus 1, every resting id's magnitude is at most the
fold's maximum, and the sign is positive for buy and negative for sell;
magnitudes are side-scoped, and because the maximum is recomputed from
the orders currently resting, ids are not monotone across removals. -/
theorem c7_next_id_formula :
  ∀ (isBuy : Bool) (b : Book),
    get_last_order_id isBuy b
        = (if isBuy then 1 else -1) * (maxAbsId (if isBuy then b.buys else b.sells) + 1) ∧
    (∀ o ∈ (if isBuy then b.buys else b.sells),
        (o.id.natAbs : ℤ) ≤ maxAbsId (if isBuy then b.buys else b.sells)) ∧
    (isBuy = true → 0 < get_last_order_id isBuy b) ∧
    (isBuy = false → get_last_order_id isBuy b < 0) := by
  intro f b
  have hmax0 : (0 : ℤ) ≤ maxAbsId (if f then b.buys else b.sells) := le_foldl_maxAbs _ 0
  have hval : get_last_order_id f b
      = (if f then (1 : ℤ) else -1) * (maxAbsId (if f then b.buys else b.sells) + 1) := by
    simp only [get_last_order_id]
    by_cases hz : maxAbsId (if f then b.buys else b.sells) = 0
    · rw [if_pos hz, hz]
      norm_num
    · rw [if_neg hz]
  refine ⟨hval, ?_, ?_, ?_⟩
  · intro o ho
    exact mem_le_foldl_maxAbs _ o ho 0
  · intro hf
    subst hf
    simp only [ite_true] at hval hmax0
    rw [hval, one_mul]
    linarith
  · intro hf
    subst hf
    simp only [Bool.false_eq_true, ite_false] at hval hmax0
    rw [hval]
    linarith

theorem c7_next_id_formula_witness :
  get_last_order_id true exBook1 = 1 * (maxAbsId exBook1.buys + 1) ∧
  (exBuy1.id.natAbs : ℤ) ≤ maxAbsId exBook1.buys ∧
  0 < get_last_order_id true exBook1 :=
  ⟨(c7_next_id_formula true exBook1).1,
    (c7_next_id_formula true exBook1).2.1 exBuy1 (by decide),
    (c7_next_id_formula true exBook1).2.2.1 rfl⟩

end MatchingEngine
